import Mathlib

/-!
# Verification of the ssulhwa workflow scripts

A shallow embedding, over `List Char`, of the two Python source files
`src/ssulhwa/workflow/validate.py` and `src/ssulhwa/workflow/context_assembly.py`,
together with theorems settling the frozen claims about them.

Text is modelled as `List Char`.  Python regular expressions are embedded by
direct denotation of their (leftmost, lazy / greedy with backtracking)
semantics on the concrete patterns the scripts use; each embedding carries a
comment citing the Python line it translates.
-/

/-! ## Generic string helpers (Python `str` methods) -/

/-- The ASCII whitespace characters recognised by Python's `str.strip()` /
`\s` (the scripts' inputs use no non-ASCII whitespace). -/
def pyWsB (c : Char) : Bool :=
  c = ' ' || c = '\t' || c = '\n' || c = '\r' || c = '\x0b' || c = '\x0c'

/-- Python `s.strip()`: drop leading and trailing whitespace. -/
def pyStrip (s : List Char) : List Char :=
  ((s.dropWhile pyWsB).reverse.dropWhile pyWsB).reverse

/-- Python `s.split("\n")`: split at every newline; `""` yields `[""]`. -/
def splitLines : List Char → List (List Char)
  | [] => [[]]
  | c :: rest =>
    if c = '\n' then [] :: splitLines rest
    else (c :: (splitLines rest).headI) :: (splitLines rest).tail

/-- Python `"\n".join(lines)`. -/
def joinNL : List (List Char) → List Char
  | [] => []
  | [l] => l
  | l :: ls => l ++ '\n' :: joinNL ls

/-! ## `validate.py`: the sentence-ending classifier (lines 126-151) -/

/-- The trailing characters stripped by `sentence.rstrip(".!? \t")`
(validate.py line 142). -/
def endingStripB (c : Char) : Bool :=
  c = '.' || c = '!' || c = '?' || c = ' ' || c = '\t'

/-- Python `sentence.rstrip(".!? \t")` (validate.py line 142). -/
def rstripEnding (s : List Char) : List Char :=
  (s.reverse.dropWhile endingStripB).reverse

/-- The three classification outcomes of `_classify_ending`. -/
inductive Ending where
  | PAST
  | OTHER_DA
  | NON_DA
deriving DecidableEq, Repr

/-- `_has_ssang_siot_batchim` (validate.py lines 126-131): the character's
code point, offset from 0xAC00, lies in the Hangul-syllable range and has
trailing-consonant index 20 (ㅆ). -/
def hasSsangSiotBatchim (c : Char) : Bool :=
  if (c.toNat : Int) - 0xAC00 < 0 || (c.toNat : Int) - 0xAC00 > 11171 then false
  else ((c.toNat : Int) - 0xAC00) % 28 = 20

/-- `_classify_ending` (validate.py lines 134-151): inspect the last two
characters of the unit after stripping trailing `.!? \t`. -/
def classify_ending (s : List Char) : Ending :=
  match (rstripEnding s).reverse with
  | d :: p :: _ =>
    if d = '다' then
      if hasSsangSiotBatchim p then
        if p = '있' || p = '겠' then Ending.OTHER_DA else Ending.PAST
      else Ending.OTHER_DA
    else Ending.NON_DA
  | _ => Ending.NON_DA

example : classify_ending ( "그는 싸웠다.".toList) = Ending.PAST := by decide
example : classify_ending ( "그는 싸운다.".toList) = Ending.OTHER_DA := by decide
example : classify_ending ( "그가 있었다.".toList) = Ending.PAST := by decide
example : classify_ending ( "그가 있다.".toList) = Ending.OTHER_DA := by decide
example : classify_ending ( "다.".toList) = Ending.NON_DA := by decide

/-! ## `validate.py`: body extraction and the F1/F2 checks (lines 18-80) -/

/-- Python `re.match(r"^\[IMG:[^\]]+\]$", stripped)` (validate.py line 42):
the whole line is `[IMG:` followed by one or more non-`]` characters and a
closing `]`. -/
def isImgLine (s : List Char) : Bool :=
  ( "[IMG:".toList).isPrefixOf s &&
    (let rest := s.drop 5
     let run := rest.takeWhile (fun c => !(c = ']'))
     decide (1 ≤ run.length) && rest.drop run.length == [']'])

/-- The line loop of `extract_body` (validate.py lines 24-47): the second
argument is the `in_body` flag. -/
def bodyLinesGo : List (List Char) → Bool → List (List Char)
  | [], _ => []
  | line :: rest, in_body =>
    let stripped := pyStrip line
    if ( "# EP-".toList).isPrefixOf stripped then bodyLinesGo rest true
    else if stripped.head? = some '>' && !in_body then bodyLinesGo rest in_body
    else if !in_body then
      if stripped = "---".toList then bodyLinesGo rest true else bodyLinesGo rest false
    else if ( "**다음 화 예고**".toList).isPrefixOf stripped
            || ( "**다음화 예고**".toList).isPrefixOf stripped then []
    else if isImgLine stripped then bodyLinesGo rest in_body
    else if stripped = "---".toList then bodyLinesGo rest in_body
    else line :: bodyLinesGo rest in_body

/-- `extract_body` (validate.py lines 18-49). -/
def extract_body (text : List Char) : List Char :=
  joinNL (bodyLinesGo (splitLines text) false)

/-- The character count of `check_f1_char_count` (validate.py line 56):
`len(body.replace("\n", "").replace(" ", ""))`. -/
def f1_char_count (text : List Char) : Nat :=
  ((extract_body text).filter (fun c => !(c = '\n' || c = ' '))).length

/-- The `result` field of `check_f1_char_count` (validate.py lines 57-61). -/
def check_f1_result (text : List Char) : List Char :=
  if 9000 ≤ f1_char_count text ∧ f1_char_count text ≤ 11000
  then "PASS".toList else "FAIL".toList

/-- One attempt of `re.findall(r"\[IMG:[^\]]+\]", text)` at the head of the
text: the length of the match there, if any (validate.py line 70). -/
def imgMatchLen (s : List Char) : Option Nat :=
  if ( "[IMG:".toList).isPrefixOf s then
    let rest := s.drop 5
    let run := rest.takeWhile (fun c => !(c = ']'))
    if 1 ≤ run.length ∧ (rest.drop run.length).head? = some ']'
    then some (5 + run.length + 1) else none
  else none

/-- `len(re.findall(r"\[IMG:[^\]]+\]", text))` (validate.py lines 70-71):
count non-overlapping matches scanning left to right: on a match of `n`
characters the scan resumes after it, otherwise it advances one character.
Every step consumes at least one character, so the `fuel` argument of the
helper, initialised to the text length, never runs out; it only makes the
recursion structural. -/
def countImgGo : Nat → List Char → Nat
  | _, [] => 0
  | 0, _ => 0
  | fuel + 1, t@(_ :: tl) =>
    match imgMatchLen t with
    | some n => 1 + countImgGo fuel (tl.drop (n - 1))
    | none => countImgGo fuel tl

def countImg (t : List Char) : Nat := countImgGo t.length t

/-- The `result` field of `check_f2_img_markers` (validate.py lines 71-76). -/
def check_f2_result (text : List Char) : List Char :=
  if 3 ≤ countImg text ∧ countImg text ≤ 5
  then "PASS".toList else "FAIL".toList

/-! ## `validate.py`: the consecutive-`PAST` run detector (lines 188-211) -/

/-- A violation group of `check_f6_sentence_endings` (validate.py
lines 199-203): start index, run length, and the truncated samples. -/
structure ViolationGroup where
  start : Nat
  length : Nat
  samples : List (List Char)
deriving DecidableEq, Repr

/-- Python `s[-30:]`: the last 30 characters (the whole string when shorter). -/
def last30 (s : List Char) : List Char := s.drop (s.length - 30)

/-- The group record appended by the detector (validate.py lines 199-203 and
206-211): up to three samples, sample `k` being the last 30 characters of
`sentence_texts[start + k]`. -/
def mkGroup (texts : List (List Char)) (start consec : Nat) : ViolationGroup :=
  { start := start
    length := consec
    samples := (List.range (min consec 3)).map (fun k => last30 (texts.getD (start + k) [])) }

/-- The scan of validate.py lines 190-211: `i` is the index of the head of
the remaining list, `start`/`consec` the current run state, `acc` the groups
flushed so far.  (Python re-sets `start` to the sentinel `-1` after a flush;
the sentinel is never read, since `start` is only used when `consec > 0`, so
the embedding simply leaves `start` unchanged there.) -/
def detectGo (texts : List (List Char)) :
    List Ending → Nat → Nat → Nat → List ViolationGroup → List ViolationGroup
  | [], _, start, consec, acc =>
    if 3 ≤ consec then acc ++ [mkGroup texts start consec] else acc
  | c :: rest, i, start, consec, acc =>
    if c = Ending.PAST then
      detectGo texts rest (i + 1) (if consec = 0 then i else start) (consec + 1) acc
    else
      detectGo texts rest (i + 1) start 0
        (if 3 ≤ consec then acc ++ [mkGroup texts start consec] else acc)

/-- The full run detection of `check_f6_sentence_endings` (validate.py
lines 189-211) on a classified sequence and the parallel sentence texts. -/
def violationGroups (cats : List Ending) (texts : List (List Char)) : List ViolationGroup :=
  detectGo texts cats 0 0 0 []

example :
    violationGroups
      [Ending.PAST, Ending.PAST, Ending.PAST, Ending.OTHER_DA, Ending.PAST, Ending.PAST]
      [] = [⟨0, 3, [[], [], []]⟩] := by decide

example :
    violationGroups [Ending.OTHER_DA, Ending.PAST, Ending.PAST, Ending.PAST] []
      = [⟨1, 3, [[], [], []]⟩] := by decide

/-! ## Embedding the scripts' regex searches

`context_assembly.py` extracts blocks with patterns of the shape
`marker(.+?)(?=term₁|term₂|\Z)` under `re.DOTALL`.  `re.search` takes the
leftmost start position where the whole pattern matches; there the lazy
`(.+?)` takes the shortest non-empty span after which some terminator
alternative (or the end of the text) follows.  The functions below denote
exactly that. -/

/-- The number of characters a lazy `(.+?)` takes before the first position
(at offset ≥ 1 from the scan start) where some terminator is a prefix;
`termScan` returns the remaining length when no terminator ever matches
(the `\Z` alternative). -/
def termScan (terms : List (List Char)) : List Char → Nat
  | [] => 0
  | t@(_ :: tl) =>
    if terms.any (fun tm => tm.isPrefixOf t) then 0 else 1 + termScan terms tl

/-- The span length taken by `(.+?)` in `(.+?)(?=terms|\Z)` applied to
`rest` (which must be non-empty): at least one character, then the earliest
terminator position, or all of `rest` for the `\Z` alternative. -/
def lazyLen (terms : List (List Char)) (rest : List Char) : Nat :=
  1 + termScan terms (rest.drop 1)

/-- `re.search(rf"{marker}(.+?)(?=term₁|…|\Z)", text, re.DOTALL)`, returning
group 1: scan for the leftmost occurrence of `marker` followed by at least
one character, and take the lazy span there. -/
def searchGroup (marker : List Char) (terms : List (List Char)) : List Char → Option (List Char)
  | [] => none
  | t@(_ :: tl) =>
    if marker.isPrefixOf t && !(t.drop marker.length).isEmpty then
      let rest := t.drop marker.length
      some (rest.take (lazyLen terms rest))
    else searchGroup marker terms tl

/-- Python's substring containment `sub in s`. -/
def hasSub (s sub : List Char) : Bool :=
  match s with
  | [] => sub.isEmpty
  | _ :: tl => sub.isPrefixOf s || hasSub tl sub

/-! ## `context_assembly.py`: static tables (lines 24-60) -/

/-- One category of `WORLD_KEYWORDS`: its trigger keywords and its target
section names (context_assembly.py lines 24-49). -/
structure KeywordRule where
  keywords : List (List Char)
  sections : List (List Char)

/-- `WORLD_KEYWORDS` (context_assembly.py lines 24-49), in the source's
(insertion) order: energy, geography, integration, politics, dragon, circle. -/
def WORLD_KEYWORDS : List KeywordRule :=
  [ ⟨[ "전투".toList, "마나".toList, "기운".toList, "폭주".toList, "마법".toList,
       "에너지".toList, "서클".toList, "공격".toList, "방어".toList, "검".toList],
     [ "에너지원 체계".toList, "에너지 작용 원리".toList, "안정화 매개체".toList,
       "마나 운용 메커니즘".toList, "마법 분류 체계".toList, "실전 마법 운용".toList]⟩,
    ⟨[ "루미나리아".toList, "아스트라".toList, "크론하임".toList, "실바렌".toList,
       "수도".toList, "도시".toList, "숲".toList, "산맥".toList, "동굴".toList],
     [ "사회/거점".toList, "지리 개요".toList, "거점/기관 이중 구조".toList]⟩,
    ⟨[ "또아리".toList, "통합".toList, "조율".toList, "동적".toList, "꼬기".toList,
       "3에너지".toList, "해체".toList],
     [ "에너지 통합 이론".toList, "또아리 조율".toList, "동적 조율".toList]⟩,
    ⟨[ "왕실".toList, "견제파".toList, "심사".toList, "카르마".toList, "정치".toList,
       "왕가".toList, "맹약".toList],
     [ "왕가-엔타리스 관계".toList, "왕립 초능력원".toList]⟩,
    ⟨[ "드래곤".toList, "코오리".toList, "호노오".toList, "드래고니안".toList,
       "폴리모프".toList],
     [ "드래고니안".toList, "드래곤 사회 규칙".toList]⟩,
    ⟨[], [ "서클 체계".toList]⟩]

/-- The `sections` of the `"circle"` category (`WORLD_KEYWORDS["circle"]`,
context_assembly.py lines 45-48), whose keyword list is empty: always
included. -/
def circleSections : List (List Char) := [ "서클 체계".toList]

/-- `CHARACTER_NAMES` (context_assembly.py lines 52-60): display name →
canonical section header. -/
def CHARACTER_NAMES : List (List Char × List Char) :=
  [ ( "사일라즈".toList, "사일라즈 엔타리스".toList),
    ( "마일스".toList, "마일스 엔타리스".toList),
    ( "카르마".toList, "카르마 엔타리스".toList),
    ( "소피아".toList, "소피아".toList),
    ( "코오리".toList, "츠메타이 코오리".toList),
    ( "알드릭".toList, "알드릭 아우렐리스".toList),
    ( "루시안".toList, "루시안 아우렐리스".toList)]

/-! ## `context_assembly.py`: section selection and truncation -/

/-- Add a section name to the accumulated selection unless already present
(the Python code accumulates into a `set`; the embedding keeps first-insertion
order, which no claim depends on). -/
def insertUniq (acc : List (List Char)) (s : List Char) : List (List Char) :=
  if acc.contains s then acc else acc ++ [s]

/-- `needed_sections.update(sections)` for one category. -/
def updateUniq (acc : List (List Char)) (new : List (List Char)) : List (List Char) :=
  new.foldl insertUniq acc

/-- The `needed_sections` set of `extract_world_sections`
(context_assembly.py lines 128-138): the circle sections unconditionally,
then every category any of whose keywords occurs as a substring of the
outline. -/
def neededSections (outline : List Char) : List (List Char) :=
  WORLD_KEYWORDS.foldl
    (fun acc cfg =>
      if cfg.keywords.any (fun kw => hasSub outline kw) then updateUniq acc cfg.sections
      else acc)
    (updateUniq [] circleSections)

/-- The elision marker appended on truncation (context_assembly.py
lines 120 and 149): `"[... 이하 생략]"`. -/
def ELISION : List Char := "[... 이하 생략]".toList

/-- The truncation step of lines 117-120 / 147-149: if the section exceeds
`cap` lines, keep the first `cap` and append the elision marker line. -/
def truncateSection (cap : Nat) (sec : List Char) : List Char :=
  if cap < (splitLines sec).length then joinNL ((splitLines sec).take cap) ++ '\n' :: ELISION
  else sec

/-- The section list built by `extract_characters` (context_assembly.py
lines 100-123), before the final `"\n\n".join`. -/
def extractCharSections (text outline : List Char) : List (List Char) :=
  let mentioned :=
    (CHARACTER_NAMES.filter (fun p => hasSub outline p.1)).map (fun p => p.2)
  let mentioned := if mentioned.isEmpty then [ "사일라즈 엔타리스".toList] else mentioned
  mentioned.filterMap (fun header =>
    (searchGroup ( "## ".toList ++ header) [ "\n## ".toList] text).map
      (fun g => truncateSection 80 ( "## ".toList ++ header ++ g)))

/-- The section list built by `extract_world_sections` (context_assembly.py
lines 126-152), before the final `"\n\n".join`. -/
def extractWorldSections (text outline : List Char) : List (List Char) :=
  (neededSections outline).filterMap (fun name =>
    (searchGroup ( "### ".toList ++ name) [ "\n### ".toList, "\n## ".toList] text).map
      (fun g => truncateSection 60 ( "### ".toList ++ name ++ g)))

/-! ## `context_assembly.py`: episode tags, the previous ending hook, and
episode-number parsing -/

/-- Python `f"EP-{n:02d}"` (context_assembly.py lines 73-74). -/
def epTag (n : Nat) : List Char :=
  "EP-".toList ++ (if n < 10 then '0' :: Nat.toDigits 10 n else Nat.toDigits 10 n)

/-- The hook pattern's terminators `(?:\n\n|\n-|\Z)` (context_assembly.py
line 93). -/
def hookTerms : List (List Char) := [ "\n\n".toList, "\n-".toList]

/-- The block-extraction terminators `(?=\n### EP-|\n---|\Z)` of
context_assembly.py lines 79 and 90. -/
def blockTerms : List (List Char) := [ "\n### EP-".toList, "\n---".toList]

/-- The bold ending-hook label `**엔딩 훅**:` (context_assembly.py line 93). -/
def hookLabel : List Char := "**엔딩 훅**:".toList

/-- The number of characters the greedy `\s*` of the hook pattern consumes
from the text after the label: the maximal whitespace run, backed off by one
character when that run reaches the end of the block so that `(.+?)` still
gets its mandatory character. -/
def hookBack (rest : List Char) : Nat :=
  if (rest.takeWhile pyWsB).length = rest.length
  then (rest.takeWhile pyWsB).length - 1
  else (rest.takeWhile pyWsB).length

/-- `re.search(r"\*\*엔딩 훅\*\*:\s*(.+?)(?:\n\n|\n-|\Z)", block, re.DOTALL)`
(context_assembly.py line 93), returning group 1: scan for the leftmost
occurrence of the label followed by at least one character, skip the
whitespace `\s*` takes, and take the lazy span there. -/
def hookGroup : List Char → Option (List Char)
  | [] => none
  | t@(_ :: tl) =>
    if hookLabel.isPrefixOf t then
      if (t.drop hookLabel.length).isEmpty then hookGroup tl
      else
        some (((t.drop hookLabel.length).drop (hookBack (t.drop hookLabel.length))).take
          (lazyLen hookTerms ((t.drop hookLabel.length).drop (hookBack (t.drop hookLabel.length)))))
    else hookGroup tl

/-- The hook taken from one previous-episode block: the matched group,
stripped (`hook_match.group(1).strip()`, context_assembly.py line 95), or
the empty string when the label is absent. -/
def hookOfBlock (block : List Char) : List Char :=
  ((hookGroup block).map pyStrip).getD []

/-- The `prev_ending_hook` field computed by `extract_ep_outline`
(context_assembly.py lines 74 and 89-95): extract the previous episode's
block with `rf"### {prev_tag}:(.+?)(?=\n### EP-|\n---|\Z)"`, then search it
for the ending-hook label; absent matches yield the empty string. -/
def prevEndingHook (text : List Char) (ep_num : Nat) : List Char :=
  if 1 < ep_num then
    ((searchGroup ( "### ".toList ++ epTag (ep_num - 1) ++ [':'])
        blockTerms text).map hookOfBlock).getD []
  else []

/-- The digit run taken by the greedy `(\d+)`, as a number (`int(group(1))`,
context_assembly.py line 68; the scripts' inputs use ASCII digits). -/
def digitsVal (ds : List Char) : Nat :=
  ds.foldl (fun a c => a * 10 + (c.toNat - '0'.toNat)) 0

/-- The optional hyphen `-?` after `EP`: drop a single leading `-`.  (When
a `-` follows `EP` the digits must follow it: the regex backtracks over the
optional `-` only to face the same `-` under `\d`, so consuming the hyphen
unconditionally is faithful.) -/
def epAfterHyphen : List Char → List Char
  | '-' :: r => r
  | r => r

/-- The greedy `(\d+)` digit run after `EP-?`. -/
def epDigits (rest : List Char) : List Char :=
  (epAfterHyphen rest).takeWhile Char.isDigit

/-- `parse_ep_number` (context_assembly.py lines 63-68):
`re.match(r"EP-?(\d+)", ep_arg, re.IGNORECASE)` anchored at the start,
`none` modelling the raised `ValueError`. -/
def parse_ep_number (s : List Char) : Option Nat :=
  match s with
  | c1 :: c2 :: rest =>
    if (c1 = 'E' || c1 = 'e') && (c2 = 'P' || c2 = 'p') then
      if (epDigits rest).isEmpty then none else some (digitsVal (epDigits rest))
    else none
  | _ => none

example : parse_ep_number ( "EP-05".toList) = some 5 := by decide
example : parse_ep_number ( "EP-5".toList) = some 5 := by decide
example : parse_ep_number ( "ep05".toList) = some 5 := by decide
example : parse_ep_number ( "EP--5".toList) = none := by decide
example : parse_ep_number ( "EP-".toList) = none := by decide
example : parse_ep_number ( "XEP-05".toList) = none := by decide
example : parse_ep_number ( "EP-05xyz".toList) = some 5 := by decide

example :
    prevEndingHook ( "### EP-01: T\n**엔딩 훅**: A\n**다른**: B\n### EP-02: U\nbody".toList) 2
      = "A\n**다른**: B".toList := by decide

/-! ## Specification-side notions -/

/-- The claims' `ord(p) - 0xAC00` (an integer, possibly negative). -/
def koreanOffset (p : Char) : Int := (p.toNat : Int) - 0xAC00

/-- A maximal run of consecutive `PAST` entries of length at least 3: all
positions `s, …, s + l - 1` classify as `PAST`, the position before the run
(when any) does not, and neither does the position after it (which may be
past the end of the sequence). -/
def IsMaximalRun (cats : List Ending) (s l : Nat) : Prop :=
  3 ≤ l ∧ (∀ j, j < l → cats[s + j]? = some Ending.PAST)
    ∧ (s = 0 ∨ ¬ cats[s - 1]? = some Ending.PAST)
    ∧ ¬ cats[s + l]? = some Ending.PAST

/-- The string `marker` occurs in `B` at position `j` with at least one
character after it — the condition for a `marker(.+?)…` search to match
there. -/
def MarkerAt (marker B : List Char) (j : Nat) : Prop :=
  (marker.isPrefixOf (B.drop j)) = true ∧ B.drop (j + marker.length) ≠ []

/-- The number of characters the hook pattern's `\s*` consumes from the
text after the label: the run of leading whitespace, capped one short of
the whole text so that the mandatory `(.+?)` character remains. -/
def wsSkip (rest : List Char) : Nat :=
  min ((rest.takeWhile pyWsB).length) (rest.length - 1)

/-- `z.take k` is the hook span the claim describes inside the text `z`
that follows the label and its whitespace run: a shortest non-empty span
after which a blank line (`\n\n`), a line starting with a hyphen (`\n-`),
or the end of the block follows — and nothing else (in particular not a
bold-labeled line) ends the span. -/
def HookSpan (z : List Char) (k : Nat) : Prop :=
  1 ≤ k ∧ k ≤ z.length
    ∧ ((( "\n\n".toList).isPrefixOf (z.drop k)) = true
        ∨ (( "\n-".toList).isPrefixOf (z.drop k)) = true
        ∨ z.drop k = [])
    ∧ ∀ j, 1 ≤ j → j < k →
        ¬ ((( "\n\n".toList).isPrefixOf (z.drop j)) = true
            ∨ (( "\n-".toList).isPrefixOf (z.drop j)) = true)

/-! ## The classifier claims (C1, C3, C9) -/

lemma hasSsang_iff (p : Char) :
    hasSsangSiotBatchim p = true ↔
      0 ≤ koreanOffset p ∧ koreanOffset p ≤ 11171 ∧ koreanOffset p % 28 = 20 := by
  unfold hasSsangSiotBatchim koreanOffset
  split
  · rename_i h
    simp only [Bool.or_eq_true, decide_eq_true_eq] at h
    constructor
    · intro hf; cases hf
    · rintro ⟨h1, h2, _⟩; omega
  · rename_i h
    simp only [Bool.or_eq_true, decide_eq_true_eq, not_or, not_lt] at h
    simp only [decide_eq_true_eq]
    constructor
    · intro hm; exact ⟨by omega, by omega, hm⟩
    · rintro ⟨_, _, hm⟩; exact hm

/-- C1: for a unit whose cleaned form (after stripping trailing `.!? \t`)
still has the character before the final `다`, the classifier returns
`NON_DA` exactly when the cleaned unit does not end in `다`, `OTHER_DA` when
the preceding character is outside the Hangul block or lacks the ㅆ trailing
consonant, `OTHER_DA` for the lexical exceptions `있` and `겠`, and `PAST`
in every remaining case; the result is always one of the three categories. -/
lemma classify_eq_two (s : List Char) (d p : Char) (rest : List Char)
    (hr : (rstripEnding s).reverse = d :: p :: rest) :
    classify_ending s =
      if d = '다' then
        if hasSsangSiotBatchim p then
          if p = '있' || p = '겠' then Ending.OTHER_DA else Ending.PAST
        else Ending.OTHER_DA
      else Ending.NON_DA := by
  unfold classify_ending
  rw [hr]

theorem c1_ending_classifier (s : List Char) :
    (¬ (rstripEnding s).getLast? = some '다' → classify_ending s = Ending.NON_DA)
    ∧ (∀ p rest, (rstripEnding s).reverse = '다' :: p :: rest →
        ((koreanOffset p < 0 ∨ 11171 < koreanOffset p ∨ ¬ koreanOffset p % 28 = 20) →
          classify_ending s = Ending.OTHER_DA)
        ∧ (koreanOffset p % 28 = 20 → (p = '있' ∨ p = '겠') →
          classify_ending s = Ending.OTHER_DA)
        ∧ (0 ≤ koreanOffset p → koreanOffset p ≤ 11171 → koreanOffset p % 28 = 20 →
            ¬ p = '있' → ¬ p = '겠' → classify_ending s = Ending.PAST))
    ∧ (classify_ending s = Ending.PAST ∨ classify_ending s = Ending.OTHER_DA
        ∨ classify_ending s = Ending.NON_DA) := by
  have hlast : (rstripEnding s).getLast? = ((rstripEnding s).reverse).head? :=
    (List.head?_reverse _).symm
  rcases hr : (rstripEnding s).reverse with _ | ⟨d, _ | ⟨p, rest⟩⟩
  · have hc : classify_ending s = Ending.NON_DA := by unfold classify_ending; rw [hr]
    exact ⟨fun _ => hc, fun p rest h => List.noConfusion h, Or.inr (Or.inr hc)⟩
  · have hc : classify_ending s = Ending.NON_DA := by unfold classify_ending; rw [hr]
    exact ⟨fun _ => hc,
      fun p rest h => by injection h with h1 h2; exact List.noConfusion h2,
      Or.inr (Or.inr hc)⟩
  · have hc := classify_eq_two s d p rest hr
    refine ⟨?_, ?_, ?_⟩
    · intro hne
      rw [hlast, hr] at hne
      simp only [List.head?_cons] at hne
      have hd : ¬ d = '다' := fun hdd => hne (by rw [hdd])
      rw [hc, if_neg hd]
    · intro p' rest' heq
      have hd : d = '다' := by injection heq
      have hpr : p :: rest = p' :: rest' := by injection heq
      have hp : p = p' := by injection hpr
      subst hd; subst hp
      rw [hc, if_pos rfl]
      refine ⟨?_, ?_, ?_⟩
      · intro hout
        have hb : hasSsangSiotBatchim p = false := by
          rw [← Bool.not_eq_true, hasSsang_iff]
          rintro ⟨h1, h2, h3⟩
          rcases hout with h | h | h <;> omega
        simp [hb]
      · intro _ hex
        by_cases hb : hasSsangSiotBatchim p = true
        · rcases hex with h | h <;> simp [hb, h]
        · simp only [Bool.not_eq_true] at hb
          simp [hb]
      · intro h1 h2 h3 h4 h5
        have hb : hasSsangSiotBatchim p = true := (hasSsang_iff p).2 ⟨h1, h2, h3⟩
        simp [hb, h4, h5]
    · rw [hc]
      split
      · split
        · split
          · exact Or.inr (Or.inl rfl)
          · exact Or.inl rfl
        · exact Or.inr (Or.inl rfl)
      · exact Or.inr (Or.inr rfl)

/-- C3, counterexample: the code classifies the unit `"그가 있었다."` as
`PAST`, not `OTHER_DA` — the character before the final `다` is `었`, which
is not one of the lexical exceptions (`있`, `겠`). -/
theorem c3_counterexample :
    classify_ending ( "그가 있었다.".toList) = Ending.PAST
      ∧ ¬ classify_ending ( "그가 있었다.".toList) = Ending.OTHER_DA := by
  decide

/-- C3 (amended): the classifier maps `"그는 싸웠다."` to `PAST`,
`"그는 싸운다."` to `OTHER_DA`, and `"그가 있었다."` to `PAST` (the syllable
preceding its final `다` is `었`, not a lexical exception; `"그가 있다."`,
whose preceding syllable is the exception `있`, maps to `OTHER_DA`). -/
theorem c3_literal_examples :
    classify_ending ( "그는 싸웠다.".toList) = Ending.PAST
      ∧ classify_ending ( "그는 싸운다.".toList) = Ending.OTHER_DA
      ∧ classify_ending ( "그가 있었다.".toList) = Ending.PAST
      ∧ classify_ending ( "그가 있다.".toList) = Ending.OTHER_DA := by
  decide

/-- C9: a unit whose stripped form has fewer than two characters is
classified `NON_DA`, whatever it ends in. -/
theorem c9_short_units (s : List Char) (h : (rstripEnding s).length < 2) :
    classify_ending s = Ending.NON_DA := by
  unfold classify_ending
  rcases hr : (rstripEnding s).reverse with _ | ⟨d, _ | ⟨p, rest⟩⟩
  · rfl
  · rfl
  · exfalso
    have := congrArg List.length hr
    simp only [List.length_reverse, List.length_cons] at this
    omega

/-- C9, witness: the unit `"다."` strips to the single character `다`, which
does end in `다`, yet is classified `NON_DA`. -/
theorem c9_short_units_witness :
    (rstripEnding ( "다.".toList)).length < 2
      ∧ (rstripEnding ( "다.".toList)).getLast? = some '다'
      ∧ classify_ending ( "다.".toList) = Ending.NON_DA :=
  ⟨by decide, by decide, c9_short_units ( "다.".toList) (by decide)⟩

/-! ## C6: the always-included world sections -/

lemma mem_insertUniq (acc : List (List Char)) (x s : List Char) (h : s ∈ acc) :
    s ∈ insertUniq acc x := by
  unfold insertUniq
  split
  · exact h
  · exact List.mem_append_left _ h

lemma mem_updateUniq (new : List (List Char)) :
    ∀ acc s, s ∈ acc → s ∈ updateUniq acc new := by
  induction new with
  | nil => intro acc s h; exact h
  | cons x xs ih =>
    intro acc s h
    simp only [updateUniq, List.foldl_cons]
    exact ih (insertUniq acc x) s (mem_insertUniq acc x s h)

lemma mem_worldFoldl (rules : List KeywordRule) (outline : List Char) :
    ∀ acc s, s ∈ acc →
      s ∈ rules.foldl
        (fun acc cfg =>
          if cfg.keywords.any (fun kw => hasSub outline kw) then updateUniq acc cfg.sections
          else acc)
        acc := by
  induction rules with
  | nil => intro acc s h; exact h
  | cons r rs ih =>
    intro acc s h
    simp only [List.foldl_cons]
    apply ih
    split
    · exact mem_updateUniq _ _ _ h
    · exact h

/-- C6: whatever the outline, the `circle` category's section `서클 체계`
is in the selected set; in particular an outline with no trigger keyword at
all (`"의미 없는 텍스트"`) still selects exactly that section. -/
theorem c6_always_include (outline : List Char) :
    "서클 체계".toList ∈ neededSections outline
      ∧ neededSections ( "의미 없는 텍스트".toList) = [ "서클 체계".toList] := by
  constructor
  · unfold neededSections
    apply mem_worldFoldl
    decide
  · decide

/-! ## C7: the section-truncation bound -/

lemma splitLines_ne_nil (s : List Char) : splitLines s ≠ [] := by
  cases s with
  | nil => simp [splitLines]
  | cons c rest =>
    unfold splitLines
    split <;> simp

lemma no_newline_mem_splitLines (s : List Char) : ∀ l ∈ splitLines s, '\n' ∉ l := by
  induction s with
  | nil =>
    intro l hl
    simp only [splitLines, List.mem_singleton] at hl
    subst hl; simp
  | cons c rest ih =>
    intro l hl
    unfold splitLines at hl
    by_cases hc : c = '\n'
    · rw [if_pos hc] at hl
      rcases List.mem_cons.mp hl with h | h
      · subst h; simp
      · exact ih l h
    · rw [if_neg hc] at hl
      cases hsp : splitLines rest with
      | nil => exact absurd hsp (splitLines_ne_nil rest)
      | cons l0 ls =>
        rw [hsp] at hl
        simp only [List.headI, List.tail_cons] at hl
        rcases List.mem_cons.mp hl with h | h
        · subst h
          intro hmem
          rcases List.mem_cons.mp hmem with h' | h'
          · exact hc h'.symm
          · exact ih l0 (by rw [hsp]; exact List.mem_cons_self _ _) h'
        · exact ih l (by rw [hsp]; exact List.mem_cons_of_mem _ h)

lemma splitLines_no_newline (l : List Char) (h : '\n' ∉ l) : splitLines l = [l] := by
  induction l with
  | nil => rfl
  | cons c rest ih =>
    have hc : ¬ c = '\n' := fun hh => h (by rw [hh]; exact List.mem_cons_self _ _)
    have hr : '\n' ∉ rest := fun hh => h (List.mem_cons_of_mem _ hh)
    unfold splitLines
    rw [if_neg hc, ih hr]
    rfl

lemma splitLines_append_nl (l t : List Char) (h : '\n' ∉ l) :
    splitLines (l ++ '\n' :: t) = l :: splitLines t := by
  induction l with
  | nil =>
    simp only [List.nil_append]
    show (if '\n' = '\n' then ([] : List Char) :: splitLines t
      else ('\n' :: (splitLines t).headI) :: (splitLines t).tail) = [] :: splitLines t
    rw [if_pos rfl]
  | cons c rest ih =>
    have hc : ¬ c = '\n' := fun hh => h (by rw [hh]; exact List.mem_cons_self _ _)
    have hr : '\n' ∉ rest := fun hh => h (List.mem_cons_of_mem _ hh)
    simp only [List.cons_append]
    show (if c = '\n' then [] :: splitLines (rest ++ '\n' :: t)
      else (c :: (splitLines (rest ++ '\n' :: t)).headI) :: (splitLines (rest ++ '\n' :: t)).tail)
        = (c :: rest) :: splitLines t
    rw [if_neg hc, ih hr]
    rfl

lemma splitLines_joinNL (ls : List (List Char)) (h1 : ls ≠ [])
    (h2 : ∀ l ∈ ls, '\n' ∉ l) : splitLines (joinNL ls) = ls := by
  induction ls with
  | nil => exact absurd rfl h1
  | cons l rest ih =>
    cases rest with
    | nil => exact splitLines_no_newline l (h2 l (List.mem_cons_self _ _))
    | cons l2 rest2 =>
      show splitLines (l ++ '\n' :: joinNL (l2 :: rest2)) = _
      rw [splitLines_append_nl _ _ (h2 l (List.mem_cons_self _ _)),
        ih (List.cons_ne_nil _ _) (fun x hx => h2 x (List.mem_cons_of_mem _ hx))]

lemma joinNL_concat (ls : List (List Char)) (m : List Char) (h : ls ≠ []) :
    joinNL (ls ++ [m]) = joinNL ls ++ '\n' :: m := by
  induction ls with
  | nil => exact absurd rfl h
  | cons l rest ih =>
    cases rest with
    | nil => rfl
    | cons l2 rest2 =>
      show l ++ '\n' :: joinNL ((l2 :: rest2) ++ [m])
        = (l ++ '\n' :: joinNL (l2 :: rest2)) ++ '\n' :: m
      rw [ih (List.cons_ne_nil _ _), List.append_assoc]
      rfl

lemma truncate_spec (cap : Nat) (hcap : 1 ≤ cap) (sec : List Char) :
    (splitLines (truncateSection cap sec)).length ≤ cap + 1
    ∧ (cap + 1 ≤ (splitLines (truncateSection cap sec)).length →
        (splitLines (truncateSection cap sec)).getLast? = some ELISION) := by
  unfold truncateSection
  split
  · rename_i h
    have htake : (splitLines sec).take cap ≠ [] := by
      intro hnil
      have := congrArg List.length hnil
      rw [List.length_take, List.length_nil] at this
      omega
    rw [(joinNL_concat _ _ htake).symm, splitLines_joinNL]
    · refine ⟨?_, fun _ => List.getLast?_concat _⟩
      simp only [List.length_append, List.length_take, List.length_singleton]
      omega
    · simp
    · intro x hx
      rcases List.mem_append.mp hx with h' | h'
      · exact no_newline_mem_splitLines sec x (List.mem_of_mem_take h')
      · rw [List.mem_singleton] at h'
        subst h'; decide
  · rename_i h
    have hle : (splitLines sec).length ≤ cap := Nat.le_of_not_lt h
    exact ⟨by omega, fun hlen => by omega⟩

/-- C7: every section string produced by the character extractor spans at
most 80 lines plus one elision-marker line (81 in total), every section
string produced by the world extractor at most 60 plus one (61 in total),
and in the truncated case the final line is the elision marker. -/
theorem c7_section_truncation (ctext wtext outline : List Char) :
    (∀ sec ∈ extractCharSections ctext outline,
        (splitLines sec).length ≤ 81
          ∧ (81 ≤ (splitLines sec).length → (splitLines sec).getLast? = some ELISION))
    ∧ (∀ sec ∈ extractWorldSections wtext outline,
        (splitLines sec).length ≤ 61
          ∧ (61 ≤ (splitLines sec).length → (splitLines sec).getLast? = some ELISION)) := by
  constructor
  · intro sec hsec
    simp only [extractCharSections, List.mem_filterMap, Option.map_eq_some'] at hsec
    obtain ⟨header, -, g, -, rfl⟩ := hsec
    exact truncate_spec 80 (by omega) _
  · intro sec hsec
    simp only [extractWorldSections, List.mem_filterMap, Option.map_eq_some'] at hsec
    obtain ⟨name, -, g, -, rfl⟩ := hsec
    exact truncate_spec 60 (by omega) _

/-! ## C10: the F2 marker count is over the raw text -/

/-- A draft exercising C10: a marker in the pre-body header region, one
embedded inside a longer body line, one on a line of its own, and one after
the next-episode-preview label. -/
def c10Text : List Char :=
  "> s\n[IMG: a]\n# EP-01: t\n---\nxx [IMG: b] yy\n[IMG: c]\n**다음 화 예고**\n[IMG: d]".toList

/-- C10: F2 passes exactly when the number of `[IMG:…]` occurrences in the
raw text lies in [3, 5]; the count includes markers in the header region,
after the preview label, and embedded in longer lines (the sample text has
4 such markers and passes), while body derivation drops only the lines that
consist solely of a marker (its body keeps the embedded marker only). -/
theorem c10_f2_raw_scope (text : List Char) :
    (check_f2_result text = "PASS".toList ↔ 3 ≤ countImg text ∧ countImg text ≤ 5)
    ∧ countImg c10Text = 4
    ∧ check_f2_result c10Text = "PASS".toList
    ∧ extract_body c10Text = "xx [IMG: b] yy".toList
    ∧ countImg (extract_body c10Text) = 1 := by
  refine ⟨?_, by decide, by decide, by decide, by decide⟩
  unfold check_f2_result
  split
  · rename_i h; exact iff_of_true rfl h
  · rename_i h; exact iff_of_false (by decide) h

/-! ## C2: the run detector emits exactly the maximal `PAST` runs -/

lemma drop_eq_cons_getElem (cats : List Ending) (i : Nat) (c : Ending) (rest : List Ending)
    (h : cats.drop i = c :: rest) : cats[i]? = some c ∧ cats.drop (i + 1) = rest := by
  constructor
  · have hd := List.getElem?_drop cats i 0
    rw [h] at hd
    simpa using hd.symm
  · have ht := List.tail_drop cats i
    rw [h] at ht
    simpa using ht.symm

lemma maximal_run_ub (cats : List Ending) (s l : Nat) (hml : IsMaximalRun cats s l) :
    s + l ≤ cats.length := by
  obtain ⟨h3, helems, -, -⟩ := hml
  have h := helems (l - 1) (by omega)
  have hidx : s + (l - 1) < cats.length := by
    by_contra hge
    rw [List.getElem?_eq_none (by omega)] at h
    cases h
  omega

lemma run_flush_maximal (cats : List Ending) (i consec : Nat)
    (h3 : 3 ≤ consec) (hcons : consec ≤ i)
    (helems : ∀ j, j < consec → cats[i - consec + j]? = some Ending.PAST)
    (hleft : 0 < consec → (i - consec = 0 ∨ ¬ cats[i - consec - 1]? = some Ending.PAST))
    (hright : ¬ cats[i]? = some Ending.PAST) :
    IsMaximalRun cats (i - consec) consec := by
  refine ⟨h3, helems, hleft (by omega), ?_⟩
  have heq : i - consec + consec = i := by omega
  rw [heq]
  exact hright

lemma run_ending_at (cats : List Ending) (i consec : Nat)
    (hcons : consec ≤ i)
    (helems : ∀ j, j < consec → cats[i - consec + j]? = some Ending.PAST)
    (hleft : 0 < consec → (i - consec = 0 ∨ ¬ cats[i - consec - 1]? = some Ending.PAST))
    (hzero : consec = 0 → (i = 0 ∨ ¬ cats[i - 1]? = some Ending.PAST))
    (s l : Nat) (hml : IsMaximalRun cats s l) (hsl : s + l = i) :
    s = i - consec ∧ l = consec := by
  obtain ⟨h3, helems', hleft', hright'⟩ := hml
  have hi1 : cats[i - 1]? = some Ending.PAST := by
    have h := helems' (l - 1) (by omega)
    have heq : s + (l - 1) = i - 1 := by omega
    rwa [heq] at h
  have hcpos : 0 < consec := by
    rcases Nat.eq_zero_or_pos consec with h0 | h
    · rcases hzero h0 with h | h
      · omega
      · exact absurd hi1 h
    · exact h
  have hns : ¬ s < i - consec := by
    intro hlt
    have hml2 : cats[i - consec - 1]? = some Ending.PAST := by
      have h := helems' (i - consec - 1 - s) (by omega)
      have heq : s + (i - consec - 1 - s) = i - consec - 1 := by omega
      rwa [heq] at h
    rcases hleft hcpos with h | h
    · omega
    · exact h hml2
  have hns' : ¬ i - consec < s := by
    intro hlt
    have hml2 : cats[s - 1]? = some Ending.PAST := by
      have h := helems (s - 1 - (i - consec)) (by omega)
      have heq : i - consec + (s - 1 - (i - consec)) = s - 1 := by omega
      rwa [heq] at h
    rcases hleft' with h | h
    · omega
    · exact h hml2
  constructor
  · omega
  · omega

lemma detectGo_mem (texts : List (List Char)) (cats : List Ending) :
    ∀ (rest : List Ending) (i start consec : Nat) (acc : List ViolationGroup),
      cats.drop i = rest →
      consec ≤ i →
      (0 < consec → start = i - consec) →
      (∀ j, j < consec → cats[i - consec + j]? = some Ending.PAST) →
      (0 < consec → (i - consec = 0 ∨ ¬ cats[i - consec - 1]? = some Ending.PAST)) →
      (consec = 0 → (i = 0 ∨ ¬ cats[i - 1]? = some Ending.PAST)) →
      (∀ g, g ∈ acc ↔ ∃ s l, g = mkGroup texts s l ∧ IsMaximalRun cats s l ∧ s + l < i) →
      ∀ g, g ∈ detectGo texts rest i start consec acc ↔
        ∃ s l, g = mkGroup texts s l ∧ IsMaximalRun cats s l := by
  intro rest
  induction rest with
  | nil =>
    intro i start consec acc hdrop hcons hstart helems hleft hzero hacc g
    have hlen : cats.length ≤ i := by
      have := List.drop_eq_nil_iff.mp hdrop
      exact this
    have hnone : cats[i]? = none := List.getElem?_eq_none (by omega)
    show g ∈ (if 3 ≤ consec then acc ++ [mkGroup texts start consec] else acc) ↔ _
    split
    · rename_i h3
      rw [List.mem_append, List.mem_singleton, hacc]
      constructor
      · rintro (⟨s, l, hg, hml, -⟩ | rfl)
        · exact ⟨s, l, hg, hml⟩
        · refine ⟨i - consec, consec, by rw [hstart (by omega)], ?_⟩
          apply run_flush_maximal cats i consec h3 hcons helems hleft
          rw [hnone]
          intro h; cases h
      · rintro ⟨s, l, hg, hml⟩
        have hub := maximal_run_ub cats s l hml
        by_cases hlt : s + l < i
        · exact Or.inl ⟨s, l, hg, hml, hlt⟩
        · have hsl : s + l = i := by omega
          obtain ⟨hs, hl⟩ := run_ending_at cats i consec hcons helems hleft hzero s l hml hsl
          right
          rw [hg, hs, hl, hstart (by omega)]
    · rename_i h3
      rw [hacc]
      constructor
      · rintro ⟨s, l, hg, hml, -⟩
        exact ⟨s, l, hg, hml⟩
      · rintro ⟨s, l, hg, hml⟩
        have hub := maximal_run_ub cats s l hml
        by_cases hlt : s + l < i
        · exact ⟨s, l, hg, hml, hlt⟩
        · exfalso
          have hsl : s + l = i := by omega
          obtain ⟨-, hl⟩ := run_ending_at cats i consec hcons helems hleft hzero s l hml hsl
          obtain ⟨hl3, -, -, -⟩ := hml
          omega
  | cons c rest' ih =>
    intro i start consec acc hdrop hcons hstart helems hleft hzero hacc g
    obtain ⟨hci, hdrop'⟩ := drop_eq_cons_getElem cats i c rest' hdrop
    show g ∈ (if c = Ending.PAST then
        detectGo texts rest' (i + 1) (if consec = 0 then i else start) (consec + 1) acc
      else detectGo texts rest' (i + 1) start 0
        (if 3 ≤ consec then acc ++ [mkGroup texts start consec] else acc)) ↔ _
    by_cases hc : c = Ending.PAST
    · rw [if_pos hc]
      have hstart' : 0 < consec + 1 → (if consec = 0 then i else start) = i + 1 - (consec + 1) := by
        intro _
        split
        · omega
        · rename_i h0
          have := hstart (by omega)
          omega
      have helems' : ∀ j, j < consec + 1 → cats[i + 1 - (consec + 1) + j]? = some Ending.PAST := by
        intro j hj
        have heq : i + 1 - (consec + 1) + j = i - consec + j := by omega
        rw [heq]
        rcases Nat.lt_succ_iff_lt_or_eq.mp hj with h | h
        · exact helems j h
        · have heq2 : i - consec + j = i := by omega
          rw [heq2, hci, hc]
      have hleft' : 0 < consec + 1 →
          (i + 1 - (consec + 1) = 0 ∨ ¬ cats[i + 1 - (consec + 1) - 1]? = some Ending.PAST) := by
        intro _
        have heq : i + 1 - (consec + 1) = i - consec := by omega
        rw [heq]
        rcases Nat.eq_zero_or_pos consec with h0 | hpos
        · subst h0
          simpa using hzero rfl
        · exact hleft hpos
      have hzero' : consec + 1 = 0 → (i + 1 = 0 ∨ ¬ cats[i + 1 - 1]? = some Ending.PAST) := by
        intro h; cases h
      have hacc' : ∀ g', g' ∈ acc ↔
          ∃ s l, g' = mkGroup texts s l ∧ IsMaximalRun cats s l ∧ s + l < i + 1 := by
        intro g'
        rw [hacc g']
        constructor
        · rintro ⟨s, l, hg, hml, hlt⟩
          exact ⟨s, l, hg, hml, by omega⟩
        · rintro ⟨s, l, hg, hml, hlt⟩
          refine ⟨s, l, hg, hml, ?_⟩
          rcases Nat.lt_succ_iff_lt_or_eq.mp hlt with h | h
          · exact h
          · exfalso
            obtain ⟨-, -, -, hright⟩ := hml
            rw [h, hci, hc] at hright
            exact hright rfl
      exact ih (i + 1) (if consec = 0 then i else start) (consec + 1) acc hdrop'
        (by omega) hstart' helems' hleft' hzero' hacc' g
    · rw [if_neg hc]
      have hzero' : (0 : Nat) = 0 → (i + 1 = 0 ∨ ¬ cats[i + 1 - 1]? = some Ending.PAST) := by
        intro _
        right
        rw [Nat.add_sub_cancel, hci]
        intro hp
        injection hp with h'
        exact hc h'
      have hacc' : ∀ g', g' ∈ (if 3 ≤ consec then acc ++ [mkGroup texts start consec] else acc) ↔
          ∃ s l, g' = mkGroup texts s l ∧ IsMaximalRun cats s l ∧ s + l < i + 1 := by
        intro g'
        split
        · rename_i h3
          rw [List.mem_append, List.mem_singleton, hacc g']
          constructor
          · rintro (⟨s, l, hg, hml, hlt⟩ | rfl)
            · exact ⟨s, l, hg, hml, by omega⟩
            · refine ⟨i - consec, consec, by rw [hstart (by omega)], ?_, by omega⟩
              apply run_flush_maximal cats i consec h3 hcons helems hleft
              rw [hci]
              intro hp
              injection hp with h'
              exact hc h'
          · rintro ⟨s, l, hg, hml, hlt⟩
            rcases Nat.lt_succ_iff_lt_or_eq.mp hlt with h | h
            · exact Or.inl ⟨s, l, hg, hml, h⟩
            · obtain ⟨hs, hl⟩ := run_ending_at cats i consec hcons helems hleft hzero s l hml h
              right
              rw [hg, hs, hl, hstart (by omega)]
        · rename_i h3
          rw [hacc g']
          constructor
          · rintro ⟨s, l, hg, hml, hlt⟩
            exact ⟨s, l, hg, hml, by omega⟩
          · rintro ⟨s, l, hg, hml, hlt⟩
            rcases Nat.lt_succ_iff_lt_or_eq.mp hlt with h | h
            · exact ⟨s, l, hg, hml, h⟩
            · exfalso
              obtain ⟨-, hl⟩ := run_ending_at cats i consec hcons helems hleft hzero s l hml h
              obtain ⟨hl3, -, -, -⟩ := hml
              omega
      exact ih (i + 1) start 0
        (if 3 ≤ consec then acc ++ [mkGroup texts start consec] else acc) hdrop'
        (by omega) (fun h => absurd h (by omega)) (fun j hj => absurd hj (by omega))
        (fun h => absurd h (by omega)) hzero' hacc' g

lemma violationGroups_mem (cats : List Ending) (texts : List (List Char)) (g : ViolationGroup) :
    g ∈ violationGroups cats texts ↔
      ∃ s l, g = mkGroup texts s l ∧ IsMaximalRun cats s l := by
  apply detectGo_mem texts cats cats 0 0 0 []
  · exact List.drop_zero cats
  · omega
  · intro h; exact absurd h (by omega)
  · intro j hj; exact absurd hj (by omega)
  · intro h; exact absurd h (by omega)
  · intro _; left; rfl
  · intro g'
    simp only [List.not_mem_nil, false_iff]
    rintro ⟨s, l, -, -, hlt⟩
    omega

/-- The classification sequence of the spec's first run-detection example. -/
def c2Cats1 : List Ending :=
  [Ending.PAST, Ending.PAST, Ending.PAST, Ending.OTHER_DA, Ending.PAST, Ending.PAST]

/-- Sentence texts for the first example; the first one is 40 characters
long, so its sample is truncated to its last 30. -/
def c2Texts1 : List (List Char) :=
  [ "0123456789abcdefghijklmnopqrstuvwxyzABCD".toList, "s1".toList, "s2".toList,
    "s3".toList, "s4".toList, "s5".toList]

/-- The classification sequence of the spec's trailing-run example. -/
def c2Cats2 : List Ending :=
  [Ending.OTHER_DA, Ending.PAST, Ending.PAST, Ending.PAST]

/-- Sentence texts for the trailing-run example. -/
def c2Texts2 : List (List Char) :=
  [ "t0".toList, "t1".toList, "t2".toList, "t3".toList]

/-- C2: a group is emitted exactly for each maximal run of consecutive
`PAST` classifications of length ≥ 3 (with its start index and length, runs
reaching the end of the sequence included), each group carries up to three
samples, sample `k` being the last 30 characters of the sentence text at
index `start + k`; on `[PAST, PAST, PAST, OTHER_DA, PAST, PAST]` exactly one
group of length 3 at index 0 results, and on `[OTHER_DA, PAST, PAST, PAST]`
exactly one group of length 3 at index 1. -/
theorem c2_run_detector (cats : List Ending) (texts : List (List Char)) :
    (∀ s l, (∃ g ∈ violationGroups cats texts, g.start = s ∧ g.length = l)
        ↔ IsMaximalRun cats s l)
    ∧ (∀ g ∈ violationGroups cats texts,
        g.samples = (List.range (min g.length 3)).map
          (fun k => last30 (texts.getD (g.start + k) [])))
    ∧ violationGroups c2Cats1 c2Texts1
        = [⟨0, 3, [ "abcdefghijklmnopqrstuvwxyzABCD".toList, "s1".toList, "s2".toList]⟩]
    ∧ violationGroups c2Cats2 c2Texts2
        = [⟨1, 3, [ "t1".toList, "t2".toList, "t3".toList]⟩] := by
  refine ⟨?_, ?_, by decide, by decide⟩
  · intro s l
    constructor
    · rintro ⟨g, hg, hs, hl⟩
      rw [violationGroups_mem] at hg
      obtain ⟨s', l', rfl, hml⟩ := hg
      simp only [mkGroup] at hs hl
      rwa [← hs, ← hl]
    · intro hml
      exact ⟨mkGroup texts s l, (violationGroups_mem _ _ _).mpr ⟨s, l, rfl, hml⟩, rfl, rfl⟩
  · intro g hg
    rw [violationGroups_mem] at hg
    obtain ⟨s, l, rfl, -⟩ := hg
    simp [mkGroup]

/-! ## C4: the F1 length bound -/

/-- Modelled from the claim's words: the whitespace-stripped character count
of a text, with every whitespace character removed (the code's
`check_f1_char_count` removes only `"\n"` and `" "`). -/
def wsStrippedCount (s : List Char) : Nat :=
  (s.filter (fun c => !(pyWsB c))).length

lemma dropWhile_replicate_false (p : Char → Bool) (a : Char) (h : p a = false) (n : Nat) :
    List.dropWhile p (List.replicate n a) = List.replicate n a := by
  cases n with
  | zero => rfl
  | succ m => simp [List.replicate_succ, List.dropWhile_cons, h]

lemma filter_replicate_keep (p : Char → Bool) (a : Char) (h : p a = true) (n : Nat) :
    List.filter p (List.replicate n a) = List.replicate n a := by
  induction n with
  | zero => rfl
  | succ m ih => simp [List.replicate_succ, List.filter_cons, h, ih]

lemma pyStrip_rep (n : Nat) : pyStrip (List.replicate n '가') = List.replicate n '가' := by
  unfold pyStrip
  rw [dropWhile_replicate_false _ _ (by decide), List.reverse_replicate,
    dropWhile_replicate_false _ _ (by decide), List.reverse_replicate]

lemma pyStrip_rep_tab (n : Nat) (hn : 1 ≤ n) :
    pyStrip (List.replicate n '가' ++ ['\t']) = List.replicate n '가' := by
  unfold pyStrip
  have h1 : List.dropWhile pyWsB (List.replicate n '가' ++ ['\t'])
      = List.replicate n '가' ++ ['\t'] := by
    obtain ⟨m, rfl⟩ : ∃ m, n = m + 1 := ⟨n - 1, by omega⟩
    rw [List.replicate_succ, List.cons_append, List.dropWhile_cons,
      show pyWsB '가' = false from by decide]
    simp
  rw [h1, List.reverse_append]
  have h2 : (['\t'] : List Char).reverse = ['\t'] := rfl
  rw [h2, List.singleton_append, List.dropWhile_cons]
  have h3 : pyWsB '\t' = true := by decide
  rw [h3, if_pos rfl, List.reverse_replicate,
    dropWhile_replicate_false _ _ (by decide), List.reverse_replicate]

lemma isPrefixOf_rep_false (c : Char) (pre : List Char) (n : Nat) (hc : (c == '가') = false) :
    ((c :: pre).isPrefixOf (List.replicate n '가')) = false := by
  cases n with
  | zero => rfl
  | succ m =>
    rw [List.replicate_succ]
    show ((c == '가') && pre.isPrefixOf (List.replicate m '가')) = false
    rw [hc, Bool.false_and]

lemma isImgLine_rep_false (n : Nat) : isImgLine (List.replicate n '가') = false := by
  unfold isImgLine
  rw [show ( "[IMG:".toList) = '[' :: ( "IMG:".toList) from rfl,
    isPrefixOf_rep_false _ _ _ (by decide), Bool.false_and]

lemma nl_not_mem_rep (n : Nat) : '\n' ∉ List.replicate n '가' := by
  intro h
  rw [List.mem_replicate] at h
  exact absurd h.2 (by decide)

lemma bodyLines_dash_line (L : List Char)
    (h1 : (( "# EP-".toList).isPrefixOf (pyStrip L)) = false)
    (h2 : (( "**다음 화 예고**".toList).isPrefixOf (pyStrip L)) = false)
    (h3 : (( "**다음화 예고**".toList).isPrefixOf (pyStrip L)) = false)
    (h4 : isImgLine (pyStrip L) = false)
    (h5 : ¬ pyStrip L = "---".toList) :
    bodyLinesGo [ "---".toList, L] false = [L] := by
  have step1 : bodyLinesGo ( "---".toList :: [L]) false = bodyLinesGo [L] true := rfl
  rw [step1]
  show (if (( "# EP-".toList).isPrefixOf (pyStrip L)) then bodyLinesGo [] true
    else if ((pyStrip L).head? = some '>' && !true) then bodyLinesGo [] true
    else if (!true) then
      (if pyStrip L = "---".toList then bodyLinesGo [] true else bodyLinesGo [] false)
    else if (( "**다음 화 예고**".toList).isPrefixOf (pyStrip L)
        || ( "**다음화 예고**".toList).isPrefixOf (pyStrip L)) then []
    else if isImgLine (pyStrip L) then bodyLinesGo [] true
    else if pyStrip L = "---".toList then bodyLinesGo [] true
    else L :: bodyLinesGo [] true) = [L]
  rw [h1, h2, h3, h4]
  simp only [Bool.not_true, Bool.and_false, Bool.or_self, Bool.false_eq_true, if_false,
    if_neg h5]
  rfl

lemma extract_body_dash (L : List Char) (h0 : '\n' ∉ L)
    (h1 : (( "# EP-".toList).isPrefixOf (pyStrip L)) = false)
    (h2 : (( "**다음 화 예고**".toList).isPrefixOf (pyStrip L)) = false)
    (h3 : (( "**다음화 예고**".toList).isPrefixOf (pyStrip L)) = false)
    (h4 : isImgLine (pyStrip L) = false)
    (h5 : ¬ pyStrip L = "---".toList) :
    extract_body ( "---\n".toList ++ L) = L := by
  unfold extract_body
  have hshape : "---\n".toList ++ L = "---".toList ++ '\n' :: L := rfl
  rw [hshape, splitLines_append_nl _ _ (by decide), splitLines_no_newline L h0,
    bodyLines_dash_line L h1 h2 h3 h4 h5]
  rfl

/-- A draft whose body is a single line of `n` copies of `가`. -/
def dashText (n : Nat) : List Char := "---\n".toList ++ List.replicate n '가'

lemma rep_ga_ne_dashes (n : Nat) : ¬ List.replicate n '가' = "---".toList := by
  intro h
  have hn : n = 3 := by
    have := congrArg List.length h
    simpa using this
  subst hn
  exact absurd h (by decide)

lemma extract_body_dashText (n : Nat) :
    extract_body (dashText n) = List.replicate n '가' := by
  apply extract_body_dash
  · exact nl_not_mem_rep n
  · rw [pyStrip_rep]
    exact isPrefixOf_rep_false '#' ( " EP-".toList) n (by decide)
  · rw [pyStrip_rep]
    exact isPrefixOf_rep_false '*' ( "*다음 화 예고**".toList) n (by decide)
  · rw [pyStrip_rep]
    exact isPrefixOf_rep_false '*' ( "*다음화 예고**".toList) n (by decide)
  · rw [pyStrip_rep]
    exact isImgLine_rep_false n
  · rw [pyStrip_rep]
    exact rep_ga_ne_dashes n

lemma f1_dashText (n : Nat) : f1_char_count (dashText n) = n := by
  unfold f1_char_count
  rw [extract_body_dashText, filter_replicate_keep _ _ (by decide), List.length_replicate]

/-- The C4 counterexample draft: its body is 8999 copies of `가` followed by
a tab character. -/
def c4Text : List Char := "---\n".toList ++ (List.replicate 8999 '가' ++ ['\t'])

/-- C4, counterexample: the code counts the tab (it strips only `"\n"` and
`" "`), so this draft passes F1 although its whitespace-stripped body count
is 8999, below the claimed lower bound 9000. -/
theorem c4_counterexample :
    check_f1_result c4Text = "PASS".toList
      ∧ wsStrippedCount (extract_body c4Text) = 8999
      ∧ ¬ 9000 ≤ wsStrippedCount (extract_body c4Text) := by
  have hbody : extract_body c4Text = List.replicate 8999 '가' ++ ['\t'] := by
    apply extract_body_dash
    · intro hmem
      rcases List.mem_append.mp hmem with h | h
      · exact nl_not_mem_rep 8999 h
      · rw [List.mem_singleton] at h
        exact absurd h (by decide)
    · rw [pyStrip_rep_tab _ (by omega)]
      exact isPrefixOf_rep_false '#' ( " EP-".toList) 8999 (by decide)
    · rw [pyStrip_rep_tab _ (by omega)]
      exact isPrefixOf_rep_false '*' ( "*다음 화 예고**".toList) 8999 (by decide)
    · rw [pyStrip_rep_tab _ (by omega)]
      exact isPrefixOf_rep_false '*' ( "*다음화 예고**".toList) 8999 (by decide)
    · rw [pyStrip_rep_tab _ (by omega)]
      exact isImgLine_rep_false 8999
    · rw [pyStrip_rep_tab _ (by omega)]
      exact rep_ga_ne_dashes 8999
  have hcount : f1_char_count c4Text = 9000 := by
    unfold f1_char_count
    rw [hbody, List.filter_append, filter_replicate_keep _ _ (by decide)]
    rw [show List.filter (fun c => !(c = '\n' || c = ' ')) ['\t'] = ['\t'] from by decide]
    rw [List.length_append, List.length_replicate]
    rfl
  have hws : wsStrippedCount (extract_body c4Text) = 8999 := by
    unfold wsStrippedCount
    rw [hbody, List.filter_append, filter_replicate_keep _ _ (by decide)]
    rw [show List.filter (fun c => !(pyWsB c)) ['\t'] = [] from by decide]
    rw [List.length_append, List.length_replicate]
    rfl
  refine ⟨?_, hws, by rw [hws]; omega⟩
  unfold check_f1_result
  rw [hcount, if_pos (by omega)]

/-- C4 (amended): F1 reports PASS exactly when the count of the derived
body's characters other than newline and space lies within [9000, 11000],
both endpoints inclusive: a body of exactly 9000 or 11000 such characters
passes, one of 8999 or 11001 fails.  (The code does not strip other
whitespace such as tabs, so "whitespace-stripped" does not hold literally:
see the counterexample.) -/
theorem c4_f1_bounds (text : List Char) :
    (check_f1_result text = "PASS".toList ↔
      9000 ≤ f1_char_count text ∧ f1_char_count text ≤ 11000)
    ∧ check_f1_result (dashText 9000) = "PASS".toList
    ∧ check_f1_result (dashText 8999) = "FAIL".toList
    ∧ check_f1_result (dashText 11000) = "PASS".toList
    ∧ check_f1_result (dashText 11001) = "FAIL".toList := by
  have hres : ∀ n, check_f1_result (dashText n)
      = if 9000 ≤ n ∧ n ≤ 11000 then "PASS".toList else "FAIL".toList := by
    intro n
    unfold check_f1_result
    rw [f1_dashText]
  refine ⟨?_, ?_, ?_, ?_, ?_⟩
  · unfold check_f1_result
    split
    · rename_i h
      exact iff_of_true rfl h
    · rename_i h
      exact iff_of_false (by decide) h
  · rw [hres, if_pos (by omega)]
  · rw [hres, if_neg (by omega)]
  · rw [hres, if_pos (by omega)]
  · rw [hres, if_neg (by omega)]

/-! ## C8: episode-number parsing -/

/-- Modelled from the claim's words: the canonical episode tag `EP-NN` with
exactly a two-digit episode number. -/
def isCanonicalEpTag (s : List Char) : Bool :=
  match s with
  | ['E', 'P', '-', d1, d2] => d1.isDigit && d2.isDigit
  | _ => false

/-- C8, counterexample: `"EP-5"` does not match the canonical `EP-NN` form
(one digit only), yet `parse_ep_number` raises no error and returns 5. -/
theorem c8_counterexample :
    parse_ep_number ( "EP-5".toList) = some 5
      ∧ isCanonicalEpTag ( "EP-5".toList) = false
      ∧ parse_ep_number ( "ep05xyz".toList) = some 5
      ∧ isCanonicalEpTag ( "ep05xyz".toList) = false := by
  decide

/-- The strings accepted by `re.match(r"EP-?(\d+)", s, re.IGNORECASE)`
together with the parsed number: case-insensitive `EP`, an optional hyphen,
a non-empty maximal digit run whose value is the result, and arbitrary
trailing text. -/
def EpParse (s : List Char) (n : Nat) : Prop :=
  ∃ e p hy ds rest, s = e :: p :: (hy ++ ds ++ rest)
    ∧ (e = 'E' ∨ e = 'e') ∧ (p = 'P' ∨ p = 'p')
    ∧ (hy = [] ∨ hy = ['-'])
    ∧ ds ≠ [] ∧ (∀ c ∈ ds, c.isDigit = true)
    ∧ (∀ c, rest.head? = some c → c.isDigit = false)
    ∧ n = digitsVal ds

lemma takeWhile_all_append (p : Char → Bool) (ds rest : List Char)
    (hds : ∀ c ∈ ds, p c = true) (hrest : ∀ c, rest.head? = some c → p c = false) :
    (ds ++ rest).takeWhile p = ds := by
  induction ds with
  | nil =>
    cases rest with
    | nil => rfl
    | cons a as =>
      rw [List.nil_append, List.takeWhile_cons, hrest a rfl]
      simp
  | cons d ds' ih =>
    rw [List.cons_append, List.takeWhile_cons, hds d (List.mem_cons_self _ _)]
    simp only [if_true]
    rw [ih (fun c hc => hds c (List.mem_cons_of_mem _ hc))]

lemma head_dropWhile_false (p : Char → Bool) (l : List Char) (c : Char)
    (h : (l.dropWhile p).head? = some c) : p c = false := by
  induction l with
  | nil => cases h
  | cons a as ih =>
    rw [List.dropWhile_cons] at h
    split at h
    · exact ih h
    · rename_i hpa
      rw [List.head?_cons] at h
      injection h with h'
      subst h'
      cases hb : p a
      · rfl
      · exact absurd hb hpa

lemma epAfterHyphen_not_hyphen (x : List Char) (h : ∀ r, ¬ x = '-' :: r) :
    epAfterHyphen x = x := by
  unfold epAfterHyphen
  split
  · exact absurd rfl (h _)
  · rfl

/-- C8 (amended): parsing raises an error exactly when the identifier does
not begin with case-insensitive `EP`, an optional hyphen and at least one
decimal digit; on a match it returns the value of the maximal digit run
(trailing text is ignored). -/
theorem c8_parse_characterisation (s : List Char) :
    (∀ n, parse_ep_number s = some n ↔ EpParse s n)
    ∧ (parse_ep_number s = none ↔ ¬ ∃ n, EpParse s n) := by
  have main : ∀ n, parse_ep_number s = some n ↔ EpParse s n := by
    intro n
    rcases s with _ | ⟨c1, _ | ⟨c2, rest⟩⟩
    · constructor
      · intro h; cases h
      · rintro ⟨e, p, hy, ds, r, heq, -⟩
        cases heq
    · constructor
      · intro h; cases h
      · rintro ⟨e, p, hy, ds, r, heq, -⟩
        injection heq with _ h2
        cases h2
    · unfold parse_ep_number
      show (if ((c1 = 'E' || c1 = 'e') && (c2 = 'P' || c2 = 'p')) = true then
          (if (epDigits rest).isEmpty = true then none
            else some (digitsVal (epDigits rest)))
        else none) = some n ↔ EpParse (c1 :: c2 :: rest) n
      by_cases hg : ((c1 = 'E' || c1 = 'e') && (c2 = 'P' || c2 = 'p')) = true
      · rw [if_pos hg]
        have hg' := hg
        simp only [Bool.and_eq_true, Bool.or_eq_true, decide_eq_true_eq] at hg'
        obtain ⟨he, hp⟩ := hg'
        by_cases hds : (epDigits rest).isEmpty = true
        · rw [if_pos hds]
          rw [List.isEmpty_iff] at hds
          constructor
          · intro h; cases h
          · rintro ⟨e, p, hy, ds, r', heq, -, -, hhy, hne, hdig, hrest, -⟩
            exfalso
            have h2 : hy ++ ds ++ r' = rest := by
              injection heq with _ h2'
              injection h2' with _ h3
              exact h3.symm
            have hds_eq : epDigits rest = ds := by
              rcases hhy with rfl | rfl
              · rw [List.nil_append] at h2
                cases ds with
                | nil => exact absurd rfl hne
                | cons d ds'' =>
                  have hd : d.isDigit = true := hdig d (List.mem_cons_self _ _)
                  rw [← h2]
                  unfold epDigits
                  rw [epAfterHyphen_not_hyphen _ (fun r'' heq' => by
                    rw [List.cons_append] at heq'
                    injection heq' with h1 _
                    rw [h1] at hd
                    exact absurd hd (by decide))]
                  exact takeWhile_all_append _ _ _ hdig hrest
              · rw [← h2]
                unfold epDigits
                rw [show epAfterHyphen (['-'] ++ ds ++ r') = ds ++ r' from rfl]
                exact takeWhile_all_append _ _ _ hdig hrest
            rw [hds_eq] at hds
            exact hne hds
        · rw [if_neg hds]
          have hne' : epDigits rest ≠ [] := by
            intro hh
            apply hds
            rw [hh]
            rfl
          constructor
          · intro h
            injection h with hn
            rcases rest with _ | ⟨c3, r⟩
            · exact absurd rfl hne'
            · by_cases hc3 : c3 = '-'
              · subst hc3
                refine ⟨c1, c2, ['-'], r.takeWhile Char.isDigit, r.dropWhile Char.isDigit,
                  ?_, he, hp, Or.inr rfl, ?_, ?_, ?_, ?_⟩
                · rw [show (['-'] : List Char) ++ r.takeWhile Char.isDigit
                      ++ r.dropWhile Char.isDigit
                    = '-' :: (r.takeWhile Char.isDigit ++ r.dropWhile Char.isDigit) from by
                      simp [List.cons_append, List.append_assoc]]
                  rw [List.takeWhile_append_dropWhile]
                · have heq2 : epDigits ('-' :: r) = r.takeWhile Char.isDigit := rfl
                  rw [heq2] at hne'
                  exact hne'
                · exact fun c hc => List.mem_takeWhile_imp hc
                · exact fun c hc => head_dropWhile_false _ _ _ hc
                · rw [← hn]
                  rfl
              · have hafter : epAfterHyphen (c3 :: r) = c3 :: r :=
                  epAfterHyphen_not_hyphen _ (fun r' heq' => by
                    injection heq' with h1 _
                    exact hc3 h1)
                have heq2 : epDigits (c3 :: r) = (c3 :: r).takeWhile Char.isDigit := by
                  unfold epDigits
                  rw [hafter]
                refine ⟨c1, c2, [], (c3 :: r).takeWhile Char.isDigit,
                  (c3 :: r).dropWhile Char.isDigit, ?_, he, hp, Or.inl rfl, ?_, ?_, ?_, ?_⟩
                · rw [List.nil_append, List.takeWhile_append_dropWhile]
                · rw [heq2] at hne'
                  exact hne'
                · exact fun c hc => List.mem_takeWhile_imp hc
                · exact fun c hc => head_dropWhile_false _ _ _ hc
                · rw [← hn, heq2]
          · rintro ⟨e, p, hy, ds, r', heq, -, -, hhy, hne, hdig, hrest, hn⟩
            have h2 : hy ++ ds ++ r' = rest := by
              injection heq with _ h2'
              injection h2' with _ h3
              exact h3.symm
            have hds_eq : epDigits rest = ds := by
              rcases hhy with rfl | rfl
              · rw [List.nil_append] at h2
                cases ds with
                | nil => exact absurd rfl hne
                | cons d ds'' =>
                  have hd : d.isDigit = true := hdig d (List.mem_cons_self _ _)
                  rw [← h2]
                  unfold epDigits
                  rw [epAfterHyphen_not_hyphen _ (fun r'' heq' => by
                    rw [List.cons_append] at heq'
                    injection heq' with h1 _
                    rw [h1] at hd
                    exact absurd hd (by decide))]
                  exact takeWhile_all_append _ _ _ hdig hrest
              · rw [← h2]
                unfold epDigits
                rw [show epAfterHyphen (['-'] ++ ds ++ r') = ds ++ r' from rfl]
                exact takeWhile_all_append _ _ _ hdig hrest
            rw [hds_eq, hn]
      · rw [if_neg hg]
        constructor
        · intro h; cases h
        · rintro ⟨e, p, hy, ds, r', heq, he, hp, -⟩
          exfalso
          apply hg
          have h1 : c1 = e := by injection heq
          have h2' : c2 :: rest = p :: (hy ++ ds ++ r') := by injection heq
          have h2 : c2 = p := by injection h2'
          rcases he with rfl | rfl <;> rcases hp with rfl | rfl <;>
            rw [h1, h2] <;> decide
  refine ⟨main, ?_⟩
  cases hp : parse_ep_number s with
  | none =>
    refine iff_of_true rfl ?_
    rintro ⟨n, hep⟩
    have := (main n).mpr hep
    rw [hp] at this
    cases this
  | some m =>
    refine iff_of_false (fun h => by cases h) (fun hne => hne ⟨m, (main m).mp hp⟩)

/-! ## C5: the previous-episode ending hook -/

/-- An outline document whose `EP-01` block carries the ending-hook label
followed by `hook` and then `tail`, and an `EP-02` block. -/
def hookDoc (hook tail : List Char) : List Char :=
  "### EP-01: T\n**엔딩 훅**: ".toList ++ hook ++ tail

/-- C5, counterexample: in this outline a bold-labeled line follows the
hook text `A` inside the `EP-01` block; the code does not stop there (its
terminators are a blank line, a line starting with `-`, or the end of the
block), so the returned hook is `A\n**다른**: B`, not `A`. -/
theorem c5_counterexample :
    prevEndingHook (hookDoc ( "A".toList) ( "\n**다른**: B\n### EP-02: U\nbody".toList)) 2
        = "A\n**다른**: B".toList
      ∧ ¬ prevEndingHook (hookDoc ( "A".toList) ( "\n**다른**: B\n### EP-02: U\nbody".toList)) 2
        = "A".toList := by
  decide

lemma isPrefixOf_self_append (l r : List Char) : (l.isPrefixOf (l ++ r)) = true := by
  induction l with
  | nil => cases r <;> rfl
  | cons a as ih =>
    show ((a == a) && as.isPrefixOf (as ++ r)) = true
    rw [ih]
    simp

lemma termScan_cons (terms : List (List Char)) (c : Char) (tl : List Char)
    (h : (terms.any (fun tm => tm.isPrefixOf (c :: tl))) = false) :
    termScan terms (c :: tl) = 1 + termScan terms tl := by
  show (if (terms.any (fun tm => tm.isPrefixOf (c :: tl))) = true then 0
    else 1 + termScan terms tl) = 1 + termScan terms tl
  rw [h]
  simp

lemma termScan_skip_no_newline (terms : List (List Char)) (A B : List Char)
    (hterms : ∀ tm ∈ terms, ∃ r, tm = '\n' :: r)
    (hA : ∀ c ∈ A, ¬ c = '\n') :
    termScan terms (A ++ B) = A.length + termScan terms B := by
  induction A with
  | nil => simp
  | cons a A' ih =>
    rw [List.cons_append]
    have hcond : (terms.any (fun tm => tm.isPrefixOf (a :: (A' ++ B)))) = false := by
      rw [List.any_eq_false]
      intro tm htm
      obtain ⟨r, rfl⟩ := hterms tm htm
      have hna : ('\n' == a) = false := by
        rw [beq_eq_false_iff_ne]
        intro hh
        exact hA a (List.mem_cons_self _ _) hh.symm
      have hred : (('\n' :: r).isPrefixOf (a :: (A' ++ B)))
          = (('\n' == a) && (r.isPrefixOf (A' ++ B))) := rfl
      rw [hred, hna, Bool.false_and]
      simp
    rw [termScan_cons _ _ _ hcond, ih (fun c hc => hA c (List.mem_cons_of_mem _ hc))]
    simp only [List.length_cons]
    omega

lemma blockTerms_nl : ∀ tm ∈ blockTerms, ∃ r, tm = '\n' :: r := by
  intro tm htm
  simp only [blockTerms, List.mem_cons, List.not_mem_nil, or_false] at htm
  rcases htm with rfl | rfl
  · exact ⟨ "### EP-".toList, rfl⟩
  · exact ⟨ "---".toList, rfl⟩

lemma hookTerms_nl : ∀ tm ∈ hookTerms, ∃ r, tm = '\n' :: r := by
  intro tm htm
  simp only [hookTerms, List.mem_cons, List.not_mem_nil, or_false] at htm
  rcases htm with rfl | rfl
  · exact ⟨ "\n".toList, rfl⟩
  · exact ⟨ "-".toList, rfl⟩

lemma termScan_block_head (X : List Char) :
    termScan blockTerms (( "T\n**엔딩 훅**: ".toList) ++ X)
      = 12 + termScan blockTerms X := by
  have h : termScan blockTerms (( "T\n**엔딩 훅**: ".toList) ++ X)
      = 1 + (1 + (1 + (1 + (1 + (1 + (1 + (1 + (1 + (1 + (1 + (1
        + termScan blockTerms X))))))))))) := rfl
  rw [h]
  omega

lemma searchGroup_at_head (marker rest : List Char) (terms : List (List Char))
    (hm : marker ≠ []) (hr : rest ≠ []) :
    searchGroup marker terms (marker ++ rest) = some (rest.take (lazyLen terms rest)) := by
  obtain ⟨m, ms, rfl⟩ : ∃ m ms, marker = m :: ms := by
    cases marker with
    | nil => exact absurd rfl hm
    | cons m ms => exact ⟨m, ms, rfl⟩
  rw [List.cons_append]
  unfold searchGroup
  have hsh : (m :: (ms ++ rest)) = (m :: ms) ++ rest := rfl
  have hpre : ((m :: ms).isPrefixOf (m :: (ms ++ rest))) = true := by
    rw [hsh]
    exact isPrefixOf_self_append _ _
  have hdrop : (m :: (ms ++ rest)).drop (m :: ms).length = rest := by
    rw [hsh]
    exact List.drop_left _ _
  have hie : rest.isEmpty = false := by
    cases rest with
    | nil => exact absurd rfl hr
    | cons r rs => rfl
  have hcond : ((m :: ms).isPrefixOf (m :: (ms ++ rest))
      && !((m :: (ms ++ rest)).drop (m :: ms).length).isEmpty) = true := by
    rw [hpre, hdrop, hie]
    rfl
  rw [if_pos hcond, hdrop]

lemma hookGroup_eq (c : Char) (tl : List Char) :
    hookGroup (c :: tl) =
      if (hookLabel.isPrefixOf (c :: tl)) = true then
        if ((c :: tl).drop hookLabel.length).isEmpty = true then hookGroup tl
        else some ((((c :: tl).drop hookLabel.length).drop
              (hookBack ((c :: tl).drop hookLabel.length))).take
            (lazyLen hookTerms (((c :: tl).drop hookLabel.length).drop
              (hookBack ((c :: tl).drop hookLabel.length)))))
      else hookGroup tl := rfl

lemma hookGroup_skip3 (X : List Char) :
    hookGroup (( " T\n".toList) ++ X) = hookGroup X := rfl

lemma hookBack_space (x : Char) (xs : List Char) (hx : pyWsB x = false) :
    hookBack (' ' :: x :: xs) = 1 := by
  unfold hookBack
  have hw : ((' ' :: x :: xs).takeWhile pyWsB).length = 1 := by
    rw [List.takeWhile_cons, show pyWsB ' ' = true from rfl]
    simp only [if_true]
    rw [List.takeWhile_cons, hx]
    simp
  rw [hw]
  rw [if_neg (by simp)]

lemma hookGroup_space (x : Char) (xs : List Char) (hx : pyWsB x = false) :
    hookGroup (( "**엔딩 훅**: ".toList) ++ (x :: xs))
      = some ((x :: xs).take (lazyLen hookTerms (x :: xs))) := by
  rw [show ( "**엔딩 훅**: ".toList) ++ (x :: xs)
      = '*' :: (( "*엔딩 훅**: ".toList) ++ (x :: xs)) from rfl]
  rw [hookGroup_eq]
  have hsh : ('*' :: (( "*엔딩 훅**: ".toList) ++ (x :: xs)))
      = hookLabel ++ (' ' :: x :: xs) := rfl
  have hpre : (hookLabel.isPrefixOf
      ('*' :: (( "*엔딩 훅**: ".toList) ++ (x :: xs)))) = true := by
    rw [hsh]
    exact isPrefixOf_self_append _ _
  have hdrop : ('*' :: (( "*엔딩 훅**: ".toList) ++ (x :: xs))).drop
      hookLabel.length = ' ' :: x :: xs := by
    rw [hsh]
    exact List.drop_left _ _
  rw [if_pos hpre, hdrop]
  rw [if_neg (by simp : ¬ ((' ' :: x :: xs).isEmpty = true))]
  rw [hookBack_space x xs hx]
  rfl

lemma dropWhile_all (p : Char → Bool) (l : List Char) (h : ∀ c ∈ l, p c = false) :
    l.dropWhile p = l := by
  cases l with
  | nil => rfl
  | cons a as =>
    rw [List.dropWhile_cons, h a (List.mem_cons_self _ _)]
    simp

lemma pyStrip_eq_self (l : List Char) (h : ∀ c ∈ l, pyWsB c = false) : pyStrip l = l := by
  unfold pyStrip
  rw [dropWhile_all _ _ h,
    dropWhile_all _ _ (fun c hc => h c (List.mem_reverse.mp hc)), List.reverse_reverse]

/-- Full characterization of the lazy terminator scan: `termScan` stays
within the text, a terminator (or the end) follows at the position it
returns, and no terminator matches at any earlier position. -/
lemma termScan_zero (terms : List (List Char)) (c : Char) (tl : List Char)
    (h : (terms.any (fun tm => tm.isPrefixOf (c :: tl))) = true) :
    termScan terms (c :: tl) = 0 := by
  show (if (terms.any (fun tm => tm.isPrefixOf (c :: tl))) = true then 0
    else 1 + termScan terms tl) = 0
  rw [h]
  simp

lemma termScan_spec (terms : List (List Char)) (z : List Char) :
    termScan terms z ≤ z.length
    ∧ ((terms.any (fun tm => tm.isPrefixOf (z.drop (termScan terms z)))) = true
        ∨ termScan terms z = z.length)
    ∧ ∀ j, j < termScan terms z →
        (terms.any (fun tm => tm.isPrefixOf (z.drop j))) = false := by
  induction z with
  | nil =>
    have h0 : termScan terms ([] : List Char) = 0 := rfl
    refine ⟨?_, Or.inr (by rw [h0] ; rfl), ?_⟩
    · rw [h0]
      exact Nat.zero_le _
    · intro j hj
      rw [h0] at hj
      exact absurd hj (Nat.not_lt_zero j)
  | cons c tl ih =>
    obtain ⟨ih1, ih2, ih3⟩ := ih
    by_cases hc : (terms.any (fun tm => tm.isPrefixOf (c :: tl))) = true
    · have h0 : termScan terms (c :: tl) = 0 := termScan_zero terms c tl hc
      refine ⟨?_, Or.inl ?_, ?_⟩
      · rw [h0]
        exact Nat.zero_le _
      · rw [h0]
        simpa using hc
      · intro j hj
        rw [h0] at hj
        exact absurd hj (Nat.not_lt_zero j)
    · have hcf : (terms.any (fun tm => tm.isPrefixOf (c :: tl))) = false := by
        cases hb : (terms.any (fun tm => tm.isPrefixOf (c :: tl))) with
        | false => rfl
        | true => exact absurd hb hc
      have hstep : termScan terms (c :: tl) = 1 + termScan terms tl :=
        termScan_cons terms c tl hcf
      have hd : (c :: tl).drop (1 + termScan terms tl) = tl.drop (termScan terms tl) := by
        rw [Nat.add_comm, List.drop_succ_cons]
      refine ⟨?_, ?_, ?_⟩
      · rw [hstep, List.length_cons]
        omega
      · rcases ih2 with h2 | h2
        · exact Or.inl (by rw [hstep, hd] ; exact h2)
        · refine Or.inr ?_
          rw [hstep, h2, List.length_cons]
          omega
      · intro j hj
        rw [hstep] at hj
        cases j with
        | zero => simpa using hcf
        | succ n =>
          rw [List.drop_succ_cons]
          exact ih3 n (by omega)

/-- The span the lazy `(.+?)(?:\n\n|\n-|\Z)` takes from a non-empty text is
exactly the claim's hook span: shortest, non-empty, ended only by a blank
line, a hyphen line, or the end of the text. -/
lemma lazyLen_hookSpan (z : List Char) (hz : z ≠ []) :
    HookSpan z (lazyLen hookTerms z) := by
  obtain ⟨c, tl, rfl⟩ := List.exists_cons_of_ne_nil hz
  have hl : lazyLen hookTerms (c :: tl) = 1 + termScan hookTerms tl := by
    unfold lazyLen
    rw [show (c :: tl).drop 1 = tl from rfl]
  obtain ⟨h1, h2, h3⟩ := termScan_spec hookTerms tl
  have hd : (c :: tl).drop (1 + termScan hookTerms tl) = tl.drop (termScan hookTerms tl) := by
    rw [Nat.add_comm, List.drop_succ_cons]
  rw [hl]
  unfold HookSpan
  refine ⟨by omega, ?_, ?_, ?_⟩
  · rw [List.length_cons]
    omega
  · rw [hd]
    rcases h2 with h2 | h2
    · simp only [hookTerms, List.any_cons, List.any_nil, Bool.or_false, Bool.or_eq_true] at h2
      rcases h2 with ha | hb
      · exact Or.inl ha
      · exact Or.inr (Or.inl hb)
    · refine Or.inr (Or.inr ?_)
      rw [h2]
      exact List.drop_length tl
  · intro j hj1 hjk hor
    obtain ⟨n, rfl⟩ : ∃ n, j = n + 1 := ⟨j - 1, by omega⟩
    rw [List.drop_succ_cons] at hor
    have h4 := h3 n (by omega)
    simp only [hookTerms, List.any_cons, List.any_nil, Bool.or_false] at h4
    rcases hor with h | h
    · rw [h, Bool.true_or] at h4
      exact Bool.noConfusion h4
    · rw [h, Bool.or_true] at h4
      exact Bool.noConfusion h4

lemma markerAt_cons (marker : List Char) (c : Char) (tl : List Char) (j : Nat) :
    MarkerAt marker tl j ↔ MarkerAt marker (c :: tl) (j + 1) := by
  unfold MarkerAt
  rw [List.drop_succ_cons,
    show j + 1 + marker.length = (j + marker.length) + 1 from by omega,
    List.drop_succ_cons]

lemma searchGroup_cons_neg (marker : List Char) (terms : List (List Char)) (c : Char)
    (tl : List Char)
    (h : (marker.isPrefixOf (c :: tl) && !((c :: tl).drop marker.length).isEmpty) = false) :
    searchGroup marker terms (c :: tl) = searchGroup marker terms tl := by
  show (if (marker.isPrefixOf (c :: tl) && !((c :: tl).drop marker.length).isEmpty) = true then
      some (((c :: tl).drop marker.length).take (lazyLen terms ((c :: tl).drop marker.length)))
    else searchGroup marker terms tl) = searchGroup marker terms tl
  rw [h]
  simp

/-- `re.search` of `marker(.+?)…` finds nothing exactly when no position
offers the marker followed by at least one character. -/
lemma searchGroup_none (marker : List Char) (terms : List (List Char)) (B : List Char)
    (h : ∀ j, ¬ MarkerAt marker B j) : searchGroup marker terms B = none := by
  induction B with
  | nil => rfl
  | cons c tl ih =>
    have hc : (marker.isPrefixOf (c :: tl) && !((c :: tl).drop marker.length).isEmpty)
        = false := by
      cases hp : marker.isPrefixOf (c :: tl) with
      | false => rw [Bool.false_and]
      | true =>
        rw [Bool.true_and]
        cases hie : ((c :: tl).drop marker.length).isEmpty with
        | true => rfl
        | false =>
          exfalso
          apply h 0
          constructor
          · rw [List.drop_zero]
            exact hp
          · rw [Nat.zero_add]
            intro hnil
            rw [hnil] at hie
            simp at hie
    rw [searchGroup_cons_neg marker terms c tl hc]
    exact ih fun j hM => h (j + 1) ((markerAt_cons marker c tl j).mp hM)

/-- When the ending-hook label (followed by at least one character) occurs
nowhere in a block, the hook search finds nothing. -/
lemma hookGroup_none (B : List Char) (h : ∀ j, ¬ MarkerAt hookLabel B j) :
    hookGroup B = none := by
  induction B with
  | nil => rfl
  | cons c tl ih =>
    have ih' : hookGroup tl = none :=
      ih fun j hM => h (j + 1) ((markerAt_cons hookLabel c tl j).mp hM)
    rw [hookGroup_eq]
    by_cases hp : (hookLabel.isPrefixOf (c :: tl)) = true
    · have hie : ((c :: tl).drop hookLabel.length).isEmpty = true := by
        by_contra hne
        apply h 0
        constructor
        · rw [List.drop_zero]
          exact hp
        · rw [Nat.zero_add]
          intro hnil
          apply hne
          rw [hnil]
          rfl
      rw [if_pos hp, if_pos hie]
      exact ih'
    · rw [if_neg hp]
      exact ih'

/-- At the first occurrence of the ending-hook label followed by at least
one character, the hook search takes the whitespace-skipped lazy span
there. -/
lemma hookGroup_some (B : List Char) (j : Nat) (hj : MarkerAt hookLabel B j)
    (hfirst : ∀ i, i < j → ¬ MarkerAt hookLabel B i) :
    hookGroup B
      = some (((B.drop (j + hookLabel.length)).drop
          (hookBack (B.drop (j + hookLabel.length)))).take
        (lazyLen hookTerms ((B.drop (j + hookLabel.length)).drop
          (hookBack (B.drop (j + hookLabel.length)))))) := by
  induction B generalizing j with
  | nil =>
    exfalso
    obtain ⟨hp, _⟩ := hj
    rw [List.drop_nil] at hp
    exact absurd hp (by decide)
  | cons c tl ih =>
    cases j with
    | zero =>
      obtain ⟨hp, hne⟩ := hj
      rw [List.drop_zero] at hp
      rw [Nat.zero_add] at hne
      have hie : ((c :: tl).drop hookLabel.length).isEmpty = false := by
        cases hd : (c :: tl).drop hookLabel.length with
        | nil => exact absurd hd hne
        | cons a as => rfl
      rw [hookGroup_eq, if_pos hp, if_neg (by rw [hie] ; exact Bool.false_ne_true)]
      rw [Nat.zero_add]
    | succ n =>
      have hj' : MarkerAt hookLabel tl n := (markerAt_cons hookLabel c tl n).mpr hj
      have hfirst' : ∀ i, i < n → ¬ MarkerAt hookLabel tl i := by
        intro i hi hM
        exact hfirst (i + 1) (by omega) ((markerAt_cons hookLabel c tl i).mp hM)
      have hrec := ih n hj' hfirst'
      by_cases hp : (hookLabel.isPrefixOf (c :: tl)) = true
      · have hie : ((c :: tl).drop hookLabel.length).isEmpty = true := by
          by_contra hne2
          apply hfirst 0 (by omega)
          constructor
          · rw [List.drop_zero]
            exact hp
          · rw [Nat.zero_add]
            intro hnil
            apply hne2
            rw [hnil]
            rfl
        rw [hookGroup_eq, if_pos hp, if_pos hie, hrec,
          show n + 1 + hookLabel.length = (n + hookLabel.length) + 1 from by omega,
          List.drop_succ_cons]
      · rw [hookGroup_eq, if_neg hp, hrec,
          show n + 1 + hookLabel.length = (n + hookLabel.length) + 1 from by omega,
          List.drop_succ_cons]

/-- The `\s*` consumption equals the capped whitespace-run length. -/
lemma hookBack_eq_wsSkip (r : List Char) : hookBack r = wsSkip r := by
  have hle : (r.takeWhile pyWsB).length ≤ r.length := (List.takeWhile_sublist pyWsB).length_le
  unfold hookBack wsSkip
  split
  · rename_i h
    omega
  · rename_i h
    omega

/-- C5 (amended): for every outline document and every episode number N,
the `prev_ending_hook` extraction returns the empty string when N ≤ 1,
when the previous-episode marker `### EP-(N-1):` followed by at least one
character occurs nowhere in the document (the previous block is absent),
or when the ending-hook label followed by at least one character occurs
nowhere in the extracted previous-episode block; otherwise, at the first
occurrence of the label in that block, it skips the whitespace run after
the label (keeping at least one character) and returns, whitespace-trimmed,
the shortest non-empty span after which a blank line, a line starting with
a hyphen, or the end of the block follows — a bold-labeled line does not
end the span.  The closing conjuncts exercise concrete documents with
space-containing hooks under each of the three terminators. -/
theorem c5_hook_extraction (text : List Char) (N : Nat) :
    (¬ 1 < N → prevEndingHook text N = [])
    ∧ ((∀ j, ¬ MarkerAt ( "### ".toList ++ epTag (N - 1) ++ [':']) text j) →
        prevEndingHook text N = [])
    ∧ (∀ B, searchGroup ( "### ".toList ++ epTag (N - 1) ++ [':']) blockTerms text = some B →
        1 < N →
        ((∀ j, ¬ MarkerAt hookLabel B j) → prevEndingHook text N = [])
        ∧ (∀ j, MarkerAt hookLabel B j → (∀ i, i < j → ¬ MarkerAt hookLabel B i) →
            ∃ z k,
              z = (B.drop (j + hookLabel.length)).drop (wsSkip (B.drop (j + hookLabel.length)))
              ∧ HookSpan z k
              ∧ prevEndingHook text N = pyStrip (z.take k)))
    ∧ prevEndingHook (hookDoc ( "하늘이 무너지는 소리가 났다".toList)
        ( "\n\n다음 문단\n### EP-02: U\nbody".toList)) 2
      = "하늘이 무너지는 소리가 났다".toList
    ∧ prevEndingHook (hookDoc ( "그가 손을 들었다".toList)
        ( "\n- 다음 항목\n### EP-02: U\nbody".toList)) 2
      = "그가 손을 들었다".toList
    ∧ prevEndingHook (hookDoc ( "문이 열렸다".toList) ( "\n### EP-02: U\nbody".toList)) 2
      = "문이 열렸다".toList := by
  refine ⟨?_, ?_, ?_, by decide, by decide, by decide⟩
  · intro hN
    unfold prevEndingHook
    rw [if_neg hN]
  · intro habs
    unfold prevEndingHook
    by_cases hN : 1 < N
    · rw [if_pos hN, searchGroup_none _ blockTerms _ habs]
      rfl
    · rw [if_neg hN]
  · intro B hB hN
    constructor
    · intro habs
      unfold prevEndingHook
      rw [if_pos hN, hB, Option.map_some', Option.getD_some]
      unfold hookOfBlock
      rw [hookGroup_none B habs]
      rfl
    · intro j hj hfirst
      have hrest : B.drop (j + hookLabel.length) ≠ [] := hj.2
      have hlen : 0 < (B.drop (j + hookLabel.length)).length := List.length_pos.mpr hrest
      refine ⟨(B.drop (j + hookLabel.length)).drop (wsSkip (B.drop (j + hookLabel.length))),
        lazyLen hookTerms
          ((B.drop (j + hookLabel.length)).drop (wsSkip (B.drop (j + hookLabel.length)))),
        rfl, ?_, ?_⟩
      · apply lazyLen_hookSpan
        intro hnil
        have hlen2 := congrArg List.length hnil
        rw [List.length_drop] at hlen2
        unfold wsSkip at hlen2
        simp only [List.length_nil] at hlen2
        have hle : ((B.drop (j + hookLabel.length)).takeWhile pyWsB).length
            ≤ (B.drop (j + hookLabel.length)).length :=
          (List.takeWhile_sublist pyWsB).length_le
        omega
      · unfold prevEndingHook
        rw [if_pos hN, hB, Option.map_some', Option.getD_some]
        unfold hookOfBlock
        rw [hookGroup_some B j hj hfirst, hookBack_eq_wsSkip, Option.map_some',
          Option.getD_some]
